import Mathlib

/-!
# checkforbrokenlinks-server: the `/slurp` link-extraction handler

A shallow embedding of `slurpHandler` and `getFailedSlurpResponse` from `main.go`,
together with the parts of the Go standard library they call
(`strings.ToLower`, `regexp.Compile`, `(*Regexp).Match`, `append`, `json.Marshal`).

Conventions of the embedding:

* a Go `string` is a Lean `String` (a sequence of Unicode code points); its bytes are the
  UTF-8 encoding of the code points (`goBytes`);
* a Go slice that may be `nil` is an `Option (List α)`: `none` is the `nil` slice,
  `some xs` a non-nil slice;
* a Go `map[string]string` is an association list with unique keys (`GoMap`);
* the network and the HTML parser are outside the program: `goquery.NewDocument` is a
  parameter of the handler, and a parsed document is given by the anchor elements that
  `doc.Find("a")` selects, in document order;
* a nil-pointer dereference is the result `none` of the handler.
-/

namespace CheckForBrokenLinks

/-! ## Go strings as bytes -/

/-- UTF-8 encoding of one code point, as `utf8.EncodeRune` writes it. -/
def utf8EncodeRune (r : Nat) : List Nat :=
  if r < 0x80 then [r]
  else if r < 0x800 then [0xC0 + r / 64, 0x80 + r % 64]
  else if r < 0x10000 then [0xE0 + r / 4096, 0x80 + r / 64 % 64, 0x80 + r % 64]
  else [0xF0 + r / 262144, 0x80 + r / 4096 % 64, 0x80 + r / 64 % 64, 0x80 + r % 64]

/-- The conversion `[]byte(s)`. -/
def goBytes (s : String) : List Nat :=
  s.data.flatMap fun c => utf8EncodeRune c.toNat

/-- Byte-wise lexicographic `<` on Go strings. -/
def bytesLess : List Nat → List Nat → Bool
  | _, [] => false
  | [], _ :: _ => true
  | a :: as, b :: bs => if a < b then true else if b < a then false else bytesLess as bs

/-! ## `strings.ToLower` -/

/-- The function `unicode.ToLower`: the ASCII range is handled inline, every other rune goes through
the Unicode case tables, which are a parameter here. -/
def unicode.ToLower (caseTable : Char → Char) (r : Char) : Char :=
  if r.toNat ≤ 0x7F then
    if 'A'.toNat ≤ r.toNat ∧ r.toNat ≤ 'Z'.toNat then Char.ofNat (r.toNat + ('a'.toNat - 'A'.toNat))
    else r
  else caseTable r

/-- The function `strings.ToLower`: every rune of `s` mapped through `unicode.ToLower`. -/
def strings.ToLower (caseTable : Char → Char) (s : String) : String :=
  ⟨s.data.map (unicode.ToLower caseTable)⟩

/-! ## `regexp`: the fragment needed for the pattern of `slurpHandler` -/

namespace regexp

/-- One instruction of a compiled pattern. -/
inductive Inst where
  /-- The assertion `^` outside multi-line mode: it holds at offset 0 of the input only. -/
  | beginText
  /-- A literal ASCII rune, which matches exactly the byte with that value. -/
  | byte (b : Nat)
  deriving DecidableEq, Repr

/-- A compiled regular expression. -/
structure Regexp where
  prog : List Inst
  deriving DecidableEq, Repr

/-- Characters with a special meaning in the pattern syntax, `^` apart. -/
def isMeta (c : Char) : Bool :=
  c ∈ ['\\', '.', '+', '*', '?', '(', ')', '|', '[', ']', Char.ofNat 123, Char.ofNat 125, '$']

/-- Translation of a pattern, one character at a time. Patterns using operators other
than `^`, or non-ASCII literals, are outside the fragment and are reported as an error. -/
def compileChars : List Char → Except String (List Inst)
  | [] => .ok []
  | c :: cs =>
    if c = '^' then
      match compileChars cs with
      | .ok p => .ok (Inst.beginText :: p)
      | .error e => .error e
    else if isMeta c ∨ 0x80 ≤ c.toNat then .error "unsupported pattern"
    else
      match compileChars cs with
      | .ok p => .ok (Inst.byte c.toNat :: p)
      | .error e => .error e

/-- The function `regexp.Compile`. -/
def Compile (expr : String) : Except String Regexp :=
  match compileChars expr.data with
  | .ok p => .ok ⟨p⟩
  | .error e => .error e

/-- Does the program match the input `rest`, which starts at offset `pos` of the text? -/
def matchAt : List Inst → List Nat → Nat → Bool
  | [], _, _ => true
  | Inst.beginText :: p, rest, pos => pos == 0 && matchAt p rest pos
  | Inst.byte _ :: _, [], _ => false
  | Inst.byte b :: p, c :: rest, pos => c == b && matchAt p rest (pos + 1)

/-- The method `(*Regexp).Match`: an unanchored search, so a match may start at any offset. -/
def Regexp.Match (re : Regexp) (b : List Nat) : Bool :=
  (List.range (b.length + 1)).any fun i => matchAt re.prog (b.drop i) i

/-- The call `re.Match(b)` through a pointer: a nil receiver is a nil-pointer
dereference, the result `none`. -/
def MatchPtr (re : Option Regexp) (b : List Nat) : Option Bool :=
  match re with
  | none => none
  | some r => some (r.Match b)

end regexp

/-! ## Go maps, slices and `json.Marshal` -/

/-- A `map[string]string`. -/
abbrev GoMap := List (String × String)

/-- The expression `make(map[string]string)`. -/
def GoMap.make : GoMap := []

/-- The assignment `m[k] = v`. -/
def GoMap.set : GoMap → String → String → GoMap
  | [], k, v => [(k, v)]
  | (k', v') :: rest, k, v =>
    if k' = k then (k, v) :: rest else (k', v') :: GoMap.set rest k v

/-- The builtin `append(s, x)`: the result is never the nil slice. -/
def goAppend {α : Type} (s : Option (List α)) (x : α) : Option (List α) :=
  match s with
  | none => some [x]
  | some xs => some (xs ++ [x])

/-- The response type of the handler. -/
structure ParsedResponse where
  Success : Bool
  Links : Option (List GoMap)
  deriving DecidableEq, Repr

namespace json

/-- Lower-case hexadecimal digit. -/
def hexDigit (n : Nat) : Char :=
  if n < 10 then Char.ofNat (48 + n) else Char.ofNat (87 + n)

/-- Encoding of one rune inside a JSON string, with HTML escaping as `Marshal` applies it. -/
def encodeRune (c : Char) : List Char :=
  let n := c.toNat
  if n < 0x80 then
    if 0x20 ≤ n ∧ n ≠ 34 ∧ n ≠ 92 ∧ n ≠ 60 ∧ n ≠ 62 ∧ n ≠ 38 then [c]
    else if n = 92 ∨ n = 34 then [Char.ofNat 92, c]
    else if n = 8 then [Char.ofNat 92, 'b']
    else if n = 12 then [Char.ofNat 92, 'f']
    else if n = 10 then [Char.ofNat 92, 'n']
    else if n = 13 then [Char.ofNat 92, 'r']
    else if n = 9 then [Char.ofNat 92, 't']
    else [Char.ofNat 92, 'u', '0', '0', hexDigit (n / 16), hexDigit (n % 16)]
  else if n = 0x2028 ∨ n = 0x2029 then [Char.ofNat 92, 'u', '2', '0', '2', hexDigit (n % 16)]
  else [c]

/-- A Go string as a JSON string literal. -/
def encodeString (s : String) : String :=
  ⟨Char.ofNat 34 :: (s.data.flatMap encodeRune ++ [Char.ofNat 34])⟩

/-- Insertion of a map entry into a list of entries sorted by key. -/
def insertEntry (e : String × String) : List (String × String) → List (String × String)
  | [] => [e]
  | f :: rest =>
    if bytesLess (goBytes f.1) (goBytes e.1) then f :: insertEntry e rest else e :: f :: rest

/-- The entries of a map in the order `Marshal` writes them: sorted by key. -/
def sortedEntries (m : GoMap) : List (String × String) :=
  m.foldr insertEntry []

/-- The members of an object or the elements of an array, separated by commas. -/
def commaJoin : List String → String
  | [] => ""
  | [x] => x
  | x :: y :: rest => x ++ "," ++ commaJoin (y :: rest)

/-- A `map[string]string` as a JSON object. -/
def encodeMap (m : GoMap) : String :=
  "\x7b" ++ commaJoin ((sortedEntries m).map fun e => encodeString e.1 ++ ":" ++ encodeString e.2)
    ++ "\x7d"

/-- A `[]map[string]string` as JSON: `null` for the nil slice, an array otherwise. -/
def encodeLinks : Option (List GoMap) → String
  | none => "null"
  | some ms => "[" ++ commaJoin (ms.map encodeMap) ++ "]"

/-- A `ParsedResponse` as a JSON object, fields in declaration order under their tags. -/
def encodeResponse (p : ParsedResponse) : String :=
  "\x7b\"success\":" ++ (if p.Success then "true" else "false") ++ ",\"links\":"
    ++ encodeLinks p.Links ++ "\x7d"

/-- The function `json.Marshal` on a `*ParsedResponse`; `none` is the untyped `nil`.
No value of this type makes the encoder fail. -/
def Marshal (v : Option ParsedResponse) : Except String String :=
  match v with
  | none => .ok "null"
  | some p => .ok (encodeResponse p)

end json

/-! ## The parsed document -/

/-- A selection holding one anchor element: its attributes in source order and the text of
its contents, `selection.Contents().Text()`. -/
structure Selection where
  attrs : List (String × String)
  text : String
  deriving DecidableEq, Repr

/-- The method `selection.Attr(name)`: the value of the first attribute with that key and
whether there is one. -/
def Selection.Attr (s : Selection) (attrName : String) : String × Bool :=
  match s.attrs.find? fun a => a.1 = attrName with
  | some a => (a.2, true)
  | none => ("", false)

/-- A fetched and parsed document, given by the selections of `doc.Find("a")`. -/
structure Document where
  anchors : List Selection
  deriving DecidableEq, Repr

/-! ## `main.go` -/

/-- The function `getFailedSlurpResponse`. -/
def getFailedSlurpResponse : String :=
  let failResponse : ParsedResponse := ⟨false, none⟩
  match json.Marshal (some failResponse) with
  | .ok failResponseJSON => failResponseJSON
  | .error _ =>
    match json.Marshal none with
    | .ok failResponseJSON => failResponseJSON
    | .error _ => ""

/-- The variables of `slurpHandler` that the callback of `Each` captures and assigns
(lines 122-127); `hrefExists` is the variable `exists`. -/
structure SlurpVars where
  link : GoMap
  href : String
  hrefExists : Bool
  content : String
  links : Option (List GoMap)
  deriving DecidableEq, Repr

/-- The variables as declared, before the first assignment. -/
def SlurpVars.zero : SlurpVars := ⟨[], "", false, "", none⟩

/-- The pattern compiled at line 130, read as visible in the rest of the function body; a
compile error is only logged, which leaves the pointer nil. -/
def slurpHandler.crossDomainRegex : Option regexp.Regexp :=
  match regexp.Compile "^http" with
  | .ok re => some re
  | .error _ => none

/-- Lines 141-143: the origin is put in front of every href the pattern does not match. -/
def slurpHandler.sameOrigin (crossDomainRegex : Option regexp.Regexp)
    (urlToScrape href : String) : Option String :=
  match regexp.MatchPtr crossDomainRegex (goBytes href) with
  | none => none
  | some isCrossDomain => some (if !isCrossDomain then urlToScrape ++ href else href)

/-- The body of the callback passed to `Each` (lines 135-146), for one anchor. -/
def slurpHandler.each (crossDomainRegex : Option regexp.Regexp) (urlToScrape : String)
    (v : SlurpVars) (_i : Nat) (selection : Selection) : Option SlurpVars :=
  let link := GoMap.make
  let (href, hrefExists) := selection.Attr "href"
  let href := if !hrefExists then "" else href
  let content := selection.text
  match slurpHandler.sameOrigin crossDomainRegex urlToScrape href with
  | none => none
  | some href =>
    let link := link.set "href" href
    let link := link.set "content" content
    some ⟨link, href, hrefExists, content, goAppend v.links link⟩

/-- The method `Each`: the callback applied to the selected elements in order, with their
indices. -/
def eachFrom (f : SlurpVars → Nat → Selection → Option SlurpVars) :
    Nat → List Selection → SlurpVars → Option SlurpVars
  | _, [], v => some v
  | i, s :: rest, v =>
    match f v i s with
    | none => none
    | some v' => eachFrom f (i + 1) rest v'

/-- What a request to `/slurp` does to the outside: the URLs handed to
`goquery.NewDocument`, in order, and the bytes handed to `w.Write`. -/
structure Effects where
  fetched : List String
  written : String
  deriving DecidableEq, Repr

/-- The function `slurpHandler`. `query` is `r.URL.Query().Get("urlToScrape")`. -/
def slurpHandler (caseTable : Char → Char) (NewDocument : String → Except String Document)
    (query : String) : Option Effects :=
  let urlToScrape := strings.ToLower caseTable query
  match NewDocument urlToScrape with
  | .ok doc =>
    match eachFrom (slurpHandler.each slurpHandler.crossDomainRegex urlToScrape) 0 doc.anchors
        SlurpVars.zero with
    | none => none
    | some v =>
      let parsedResponse : ParsedResponse := ⟨true, v.links⟩
      match json.Marshal (some parsedResponse) with
      | .ok parsedResponseJSON => some ⟨[urlToScrape], parsedResponseJSON⟩
      | .error _ => some ⟨[urlToScrape], getFailedSlurpResponse⟩
  | .error _ => some ⟨[urlToScrape], getFailedSlurpResponse⟩

/-! ## Reference definitions, after the specification -/

namespace Spec

/-- The classifier of the specification: the string begins with `http`. -/
def isAbsolute (href : String) : Bool :=
  "http".data.isPrefixOf href.data

/-- The normaliser of the specification: an absolute href is returned unchanged, any
other href is appended to the origin. -/
def normalize (href originURL : String) : String :=
  if isAbsolute href then href else originURL ++ href

end Spec

/-- The elements of a slice; the nil slice has none. -/
def sliceElems {α : Type} : Option (List α) → List α
  | none => []
  | some xs => xs

/-- The link that the specification asks for an anchor: the normalised href (the empty
string stands for a missing attribute) and the text. -/
def linkOf (originURL : String) (a : Selection) : GoMap :=
  [("href", Spec.normalize (a.Attr "href").1 originURL), ("content", a.text)]

end CheckForBrokenLinks

namespace CheckForBrokenLinks

/-! ## Lemmas on the library fragment -/

theorem utf8EncodeRune_ascii (r : Nat) (h : r < 0x80) : utf8EncodeRune r = [r] := by
  simp [utf8EncodeRune, h]

theorem utf8EncodeRune_head_ge (r : Nat) (h : ¬ r < 0x80) :
    ∃ x xs, utf8EncodeRune r = x :: xs ∧ 0x80 ≤ x := by
  unfold utf8EncodeRune
  rw [if_neg h]
  by_cases h2 : r < 0x800
  · rw [if_pos h2]; exact ⟨_, _, rfl, by omega⟩
  · rw [if_neg h2]
    by_cases h3 : r < 0x10000
    · rw [if_pos h3]; exact ⟨_, _, rfl, by omega⟩
    · rw [if_neg h3]; exact ⟨_, _, rfl, by omega⟩

theorem char_eq_of_toNat_eq {c d : Char} (h : c.toNat = d.toNat) : c = d := by
  apply Char.ext
  apply UInt32.ext
  exact h

/-- On an ASCII prefix, comparing bytes and comparing code points agree. -/
theorem bytes_isPrefixOf_ascii (t : List Char) (ht : ∀ c ∈ t, c.toNat < 0x80) (s : List Char) :
    (t.flatMap fun c => utf8EncodeRune c.toNat).isPrefixOf
      (s.flatMap fun c => utf8EncodeRune c.toNat) = t.isPrefixOf s := by
  induction t generalizing s with
  | nil => simp
  | cons a t ih =>
    have ha : a.toNat < 0x80 := ht a (List.mem_cons_self _ _)
    have ht2 : ∀ c ∈ t, c.toNat < 0x80 := fun c hc => ht c (List.mem_cons_of_mem _ hc)
    cases s with
    | nil => simp [utf8EncodeRune_ascii _ ha, List.isPrefixOf]
    | cons c s =>
      simp only [List.flatMap_cons, utf8EncodeRune_ascii _ ha, List.singleton_append]
      by_cases hc : c.toNat < 0x80
      · simp only [utf8EncodeRune_ascii _ hc, List.singleton_append, List.isPrefixOf, ih ht2 s]
        by_cases hac : a = c
        · subst hac; simp
        · have h1 : ¬ a.toNat = c.toNat := fun h => hac (char_eq_of_toNat_eq h)
          rw [beq_false_of_ne h1, beq_false_of_ne hac]
      · obtain ⟨x, xs, hx, hge⟩ := utf8EncodeRune_head_ge _ hc
        have hne : ¬ a = c := fun h => hc (h ▸ ha)
        have hne2 : ¬ a.toNat = x := by omega
        rw [hx]
        simp only [List.cons_append, List.isPrefixOf]
        rw [beq_false_of_ne hne2, beq_false_of_ne hne]; rfl

theorem matchAt_bytes (l b : List Nat) (pos : Nat) :
    regexp.matchAt (l.map regexp.Inst.byte) b pos = l.isPrefixOf b := by
  induction l generalizing b pos with
  | nil => simp [regexp.matchAt]
  | cons a l ih =>
    cases b with
    | nil => simp [regexp.matchAt, List.isPrefixOf]
    | cons c b =>
      simp only [List.map_cons, regexp.matchAt, List.isPrefixOf, ih]
      by_cases h : a = c
      · subst h; simp
      · have h1 : ¬ c = a := fun h2 => h h2.symm
        rw [beq_false_of_ne h, beq_false_of_ne h1]

theorem Match_beginText (p : List regexp.Inst) (b : List Nat) :
    regexp.Regexp.Match ⟨regexp.Inst.beginText :: p⟩ b = regexp.matchAt p b 0 := by
  unfold regexp.Regexp.Match
  cases hm : regexp.matchAt p b 0 with
  | true =>
    rw [List.any_eq_true]
    exact ⟨0, by simp, by simp [regexp.matchAt, hm]⟩
  | false =>
    rw [List.any_eq_false]
    intro i _
    cases i with
    | zero => simp [regexp.matchAt, hm]
    | succ n => simp [regexp.matchAt]

theorem crossDomainRegex_eq :
    slurpHandler.crossDomainRegex
      = some ⟨regexp.Inst.beginText :: [104, 116, 116, 112].map regexp.Inst.byte⟩ := by
  decide

/-- The compiled pattern matches exactly the strings that begin with `http`. -/
theorem crossDomain_match (s : String) :
    regexp.MatchPtr slurpHandler.crossDomainRegex (goBytes s) = some (Spec.isAbsolute s) := by
  rw [crossDomainRegex_eq]
  simp only [regexp.MatchPtr, Match_beginText, matchAt_bytes, Spec.isAbsolute, goBytes]
  have h := bytes_isPrefixOf_ascii "http".data (by decide) s.data
  rw [← h]
  rfl

theorem sameOrigin_eq (o h : String) :
    slurpHandler.sameOrigin slurpHandler.crossDomainRegex o h = some (Spec.normalize h o) := by
  unfold slurpHandler.sameOrigin
  rw [crossDomain_match]
  unfold Spec.normalize
  cases Spec.isAbsolute h <;> simp

/-! ## Lemmas on the handler -/

theorem Attr_missing (s : Selection) (n : String) (h : (s.Attr n).2 = false) :
    (s.Attr n).1 = "" := by
  unfold Selection.Attr at h ⊢
  cases hf : s.attrs.find? fun a => a.1 = n with
  | none => rfl
  | some a => rw [hf] at h; simp at h

theorem each_eq (o : String) (v : SlurpVars) (i : Nat) (sel : Selection) :
    slurpHandler.each slurpHandler.crossDomainRegex o v i sel
      = some ⟨linkOf o sel, Spec.normalize (sel.Attr "href").1 o, (sel.Attr "href").2,
          sel.text, goAppend v.links (linkOf o sel)⟩ := by
  unfold slurpHandler.each
  have hh : (if !(sel.Attr "href").2 then "" else (sel.Attr "href").1) = (sel.Attr "href").1 := by
    cases h2 : (sel.Attr "href").2 with
    | true => rfl
    | false => simp [Attr_missing sel "href" h2]
  simp only [hh, sameOrigin_eq]
  rfl

theorem foldl_goAppend {α β : Type} (f : β → α) (l : List β) (s : Option (List α)) :
    l.foldl (fun acc a => goAppend acc (f a)) s
      = if l.isEmpty then s else some (sliceElems s ++ l.map f) := by
  induction l generalizing s with
  | nil => simp
  | cons a l ih =>
    rw [List.foldl_cons, ih]
    cases s <;> cases l <;> simp [goAppend, sliceElems]

theorem eachFrom_eq (o : String) (anchors : List Selection) (i : Nat) (v : SlurpVars) :
    ∃ w, eachFrom (slurpHandler.each slurpHandler.crossDomainRegex o) i anchors v = some w
      ∧ w.links = anchors.foldl (fun acc a => goAppend acc (linkOf o a)) v.links := by
  induction anchors generalizing i v with
  | nil => exact ⟨v, rfl, rfl⟩
  | cons a rest ih =>
    unfold eachFrom
    rw [each_eq]
    exact ih _ _

/-- The links variable after the loop: nil without anchors, one link for each anchor
otherwise. -/
theorem eachFrom_links (o : String) (anchors : List Selection) :
    ∃ w, eachFrom (slurpHandler.each slurpHandler.crossDomainRegex o) 0 anchors SlurpVars.zero
        = some w
      ∧ w.links = if anchors.isEmpty then none else some (anchors.map (linkOf o)) := by
  obtain ⟨w, hw, hl⟩ := eachFrom_eq o anchors 0 SlurpVars.zero
  refine ⟨w, hw, ?_⟩
  rw [hl, foldl_goAppend]
  simp [SlurpVars.zero, sliceElems]

theorem getFailedSlurpResponse_eq :
    getFailedSlurpResponse = "\x7b\"success\":false,\"links\":null\x7d" := by
  decide

/-- The handler in closed form. -/
theorem slurpHandler_eq (caseTable : Char → Char)
    (NewDocument : String → Except String Document) (query : String) :
    slurpHandler caseTable NewDocument query
      = some ⟨[strings.ToLower caseTable query],
          match NewDocument (strings.ToLower caseTable query) with
          | .ok doc =>
            json.encodeResponse ⟨true,
              if doc.anchors.isEmpty then none
              else some (doc.anchors.map (linkOf (strings.ToLower caseTable query)))⟩
          | .error _ => "\x7b\"success\":false,\"links\":null\x7d"⟩ := by
  unfold slurpHandler
  cases hd : NewDocument (strings.ToLower caseTable query) with
  | error e => simp only [hd, getFailedSlurpResponse_eq]
  | ok doc =>
    obtain ⟨w, hw, hl⟩ := eachFrom_links (strings.ToLower caseTable query) doc.anchors
    simp only [hd, hw, hl, json.Marshal]

theorem isAbsolute_iff_take (s : String) :
    Spec.isAbsolute s = true ↔ s.data.take 4 = ['h', 't', 't', 'p'] := by
  unfold Spec.isAbsolute
  rw [List.isPrefixOf_iff_prefix, List.prefix_iff_eq_take]
  constructor
  · intro h; exact h.symm
  · intro h; exact h.symm

theorem isAbsolute_append (o h : String) (ho : Spec.isAbsolute o = true) :
    Spec.isAbsolute (o ++ h) = true := by
  unfold Spec.isAbsolute at ho ⊢
  rw [List.isPrefixOf_iff_prefix] at ho ⊢
  rw [String.data_append]
  exact ho.trans (List.prefix_append _ _)

theorem normalize_of_absolute (h o : String) (habs : Spec.isAbsolute h = true) :
    Spec.normalize h o = h := by
  simp [Spec.normalize, habs]

theorem normalize_of_relative (h o : String) (hrel : Spec.isAbsolute h = false) :
    Spec.normalize h o = o ++ h := by
  simp [Spec.normalize, hrel]

theorem isAbsolute_append_slash (o : String) (ho : Spec.isAbsolute o = false) :
    Spec.isAbsolute (o ++ "/x") = false := by
  obtain ⟨od⟩ := o
  unfold Spec.isAbsolute at ho ⊢
  rw [String.data_append]
  rcases od with _ | ⟨a, _ | ⟨b, _ | ⟨c, _ | ⟨d, r⟩⟩⟩⟩
  · decide
  · simp [List.isPrefixOf]
  · simp [List.isPrefixOf]
  · simp [List.isPrefixOf]
  · simpa [List.isPrefixOf] using ho

theorem append_ne_self (o e : String) (ho : o ≠ "") : o ++ e ≠ e := by
  intro h
  have hd := congrArg (fun s => s.data.length) h
  simp only [String.data_append, List.length_append] at hd
  have : o.data = [] := List.eq_nil_of_length_eq_zero (by omega)
  exact ho (String.ext this)

theorem encodeMap_link (href content : String) :
    json.encodeMap [("href", href), ("content", content)]
      = "\x7b\"content\":" ++ json.encodeString content ++ ",\"href\":"
          ++ json.encodeString href ++ "\x7d" := by
  have hs : json.sortedEntries [("href", href), ("content", content)]
      = [("content", content), ("href", href)] := by
    have hb : bytesLess (goBytes "content") (goBytes "href") = true := by decide
    simp [json.sortedEntries, json.insertEntry, hb]
  have hc : json.encodeString "content" = "\"content\"" := by decide
  have hh : json.encodeString "href" = "\"href\"" := by decide
  unfold json.encodeMap
  rw [hs]
  simp only [List.map, json.commaJoin, hc, hh]
  apply String.ext
  simp [String.data_append]

/-! ## The claims -/

/-- C1: for every origin and every sequence of anchors a_1..a_N selected from the parsed
document, the loop of `slurpHandler` terminates normally and leaves exactly N links, the
i-th of which is built from a_i: its content is the text of a_i and its href is the
normalisation of the href of a_i, the empty string standing for a missing attribute.
No anchor is dropped or reordered. -/
theorem C1_one_link_per_anchor (urlToScrape : String) (anchors : List Selection) :
    ∃ w, eachFrom (slurpHandler.each slurpHandler.crossDomainRegex urlToScrape) 0 anchors
          SlurpVars.zero = some w
      ∧ (sliceElems w.links).length = anchors.length
      ∧ sliceElems w.links = anchors.map (fun a =>
          [("href", Spec.normalize (a.Attr "href").1 urlToScrape), ("content", a.text)])
      ∧ (∀ (i : Nat) (a : Selection), anchors[i]? = some a →
          (sliceElems w.links)[i]?
            = some [("href", Spec.normalize (a.Attr "href").1 urlToScrape), ("content", a.text)])
      ∧ (∀ a ∈ anchors, (a.Attr "href").2 = false → (a.Attr "href").1 = "") := by
  obtain ⟨w, hw, hl⟩ := eachFrom_links urlToScrape anchors
  have hmap : sliceElems w.links = anchors.map (linkOf urlToScrape) := by
    rw [hl]
    cases anchors <;> simp [sliceElems]
  refine ⟨w, hw, ?_, hmap, ?_, ?_⟩
  · rw [hmap, List.length_map]
  · intro i a hi
    rw [hmap, List.getElem?_map, hi]
    rfl
  · intro a _ h
    exact Attr_missing a "href" h

/-- C2: for every href h and origin o, the href computed at lines 141-143 and stored in
the emitted link is the reference `normalize h o`: h itself when h begins with `http`,
and the plain concatenation `o ++ h` otherwise, with no slash inserted or removed and no
`../` collapsed. -/
theorem C2_href_is_normalize (h o : String) :
    slurpHandler.sameOrigin slurpHandler.crossDomainRegex o h = some (Spec.normalize h o)
      ∧ Spec.normalize h o = (if "http".data.isPrefixOf h.data then h else o ++ h)
      ∧ (∀ (v : SlurpVars) (i : Nat) (text : String),
          ∃ w, slurpHandler.each slurpHandler.crossDomainRegex o v i ⟨[("href", h)], text⟩ = some w
            ∧ w.link = [("href", Spec.normalize h o), ("content", text)]
            ∧ w.links = goAppend v.links w.link)
      ∧ slurpHandler.sameOrigin slurpHandler.crossDomainRegex "http://a.com/b/" "../c"
          = some "http://a.com/b/../c"
      ∧ slurpHandler.sameOrigin slurpHandler.crossDomainRegex "http://a.com" "x"
          = some "http://a.comx"
      ∧ slurpHandler.sameOrigin slurpHandler.crossDomainRegex "http://a.com/" "/x"
          = some "http://a.com//x" := by
  refine ⟨sameOrigin_eq o h, rfl, ?_, by decide, by decide, by decide⟩
  intro v i text
  refine ⟨_, each_eq o v i ⟨[("href", h)], text⟩, ?_, rfl⟩
  have ha : (Selection.Attr ⟨[("href", h)], text⟩ "href").1 = h := by
    simp [Selection.Attr]
  simp only [linkOf, ha]

/-- C3 (as stated, refuted): a successfully fetched document without anchors is answered
with `links` null, not with an empty array. -/
theorem C3_counterexample :
    (slurpHandler id (fun _ => Except.ok ⟨[]⟩) "http://example.com").map Effects.written
        = some "\x7b\"success\":true,\"links\":null\x7d"
      ∧ (slurpHandler id (fun _ => Except.ok ⟨[]⟩) "http://example.com").map Effects.written
        ≠ some "\x7b\"success\":true,\"links\":[]\x7d" := by
  decide

/-- C3 (amended): for every successfully fetched document that contains zero anchor
elements, the response body written by `slurpHandler` is exactly
`{"success":true,"links":null}`: the links slice is still nil when it is marshalled. -/
theorem C3_no_anchors_links_null (caseTable : Char → Char)
    (NewDocument : String → Except String Document) (query : String) (doc : Document)
    (hfetch : NewDocument (strings.ToLower caseTable query) = Except.ok doc)
    (hzero : doc.anchors = []) :
    slurpHandler caseTable NewDocument query
      = some ⟨[strings.ToLower caseTable query], "\x7b\"success\":true,\"links\":null\x7d"⟩ := by
  rw [slurpHandler_eq, hfetch]
  simp only [hzero]
  rfl

/-- Witness of C3 (amended): an empty document fetched from `http://example.com`. -/
theorem C3_no_anchors_links_null_witness :
    slurpHandler id (fun _ => Except.ok ⟨[]⟩) "http://example.com"
      = some ⟨["http://example.com"], "\x7b\"success\":true,\"links\":null\x7d"⟩ :=
  C3_no_anchors_links_null id (fun _ => Except.ok ⟨[]⟩) "http://example.com" ⟨[]⟩ rfl rfl

/-- C4: for every target URL, if the fetch returns an error then the handler returns
normally and the body it writes is exactly `{"success":false,"links":null}`, whatever
the URL and the error. -/
theorem C4_fetch_error_body (caseTable : Char → Char)
    (NewDocument : String → Except String Document) (query err : String)
    (hfetch : NewDocument (strings.ToLower caseTable query) = Except.error err) :
    slurpHandler caseTable NewDocument query
      = some ⟨[strings.ToLower caseTable query], "\x7b\"success\":false,\"links\":null\x7d"⟩ := by
  rw [slurpHandler_eq, hfetch]

/-- Witness of C4: a host that cannot be reached. -/
theorem C4_fetch_error_body_witness :
    slurpHandler id (fun _ => Except.error "no such host") "http://unreachable.invalid/A"
      = some ⟨["http://unreachable.invalid/a"], "\x7b\"success\":false,\"links\":null\x7d"⟩ :=
  C4_fetch_error_body id (fun _ => Except.error "no such host") "http://unreachable.invalid/A"
    "no such host" rfl

/-- C5: for every string s, matching the compiled pattern `^http` against the bytes of s
returns a result, and that result is true if and only if the first four characters of s
are exactly `h`, `t`, `t`, `p`. So `httpfoo` is absolute, while `HTTP://x`, the empty
string, ` http://x` and a string with `http` after a newline are not. -/
theorem C5_classifier (s : String) :
    (∃ b, regexp.MatchPtr slurpHandler.crossDomainRegex (goBytes s) = some b
        ∧ (b = true ↔ s.data.take 4 = ['h', 't', 't', 'p']))
      ∧ regexp.Compile "^http" = Except.ok ⟨[regexp.Inst.beginText, regexp.Inst.byte 104,
          regexp.Inst.byte 116, regexp.Inst.byte 116, regexp.Inst.byte 112]⟩
      ∧ regexp.MatchPtr slurpHandler.crossDomainRegex (goBytes "httpfoo") = some true
      ∧ regexp.MatchPtr slurpHandler.crossDomainRegex (goBytes "HTTP://x") = some false
      ∧ regexp.MatchPtr slurpHandler.crossDomainRegex (goBytes "") = some false
      ∧ regexp.MatchPtr slurpHandler.crossDomainRegex (goBytes " http://x") = some false
      ∧ regexp.MatchPtr slurpHandler.crossDomainRegex (goBytes "/a\nhttp") = some false := by
  refine ⟨⟨_, crossDomain_match s, isAbsolute_iff_take s⟩, rfl, by decide, by decide,
    by decide, by decide, by decide⟩

/-- C6: for every origin o, an anchor without an href attribute still yields a link,
appended to the links, whose href is exactly o. In particular the document
`<a href="/about">About</a><a>No Href</a>` fetched from `http://example.com/page` yields
exactly two links, in order: href `http://example.com/page/about` with content `About`,
then href `http://example.com/page` with content `No Href`. -/
theorem C6_missing_href_yields_origin (o : String) (v : SlurpVars) (i : Nat) (sel : Selection)
    (hmissing : (sel.Attr "href").2 = false) :
    (∃ w, slurpHandler.each slurpHandler.crossDomainRegex o v i sel = some w
        ∧ w.link = [("href", o), ("content", sel.text)]
        ∧ w.links = goAppend v.links w.link)
      ∧ (eachFrom (slurpHandler.each slurpHandler.crossDomainRegex "http://example.com/page") 0
            [⟨[("href", "/about")], "About"⟩, ⟨[], "No Href"⟩] SlurpVars.zero).map SlurpVars.links
          = some (some [[("href", "http://example.com/page/about"), ("content", "About")],
              [("href", "http://example.com/page"), ("content", "No Href")]])
      ∧ slurpHandler id (fun _ => Except.ok ⟨[⟨[("href", "/about")], "About"⟩, ⟨[], "No Href"⟩]⟩)
            "http://example.com/page"
          = some ⟨["http://example.com/page"],
              "\x7b\"success\":true,\"links\":[\x7b\"content\":\"About\",\"href\":\"http://example.com/page/about\"\x7d,\x7b\"content\":\"No Href\",\"href\":\"http://example.com/page\"\x7d]\x7d"⟩ := by
  refine ⟨⟨_, each_eq o v i sel, ?_, rfl⟩, by decide, by decide⟩
  have he : (sel.Attr "href").1 = "" := Attr_missing sel "href" hmissing
  have hn : Spec.normalize "" o = o := by
    rw [normalize_of_relative "" o (by decide)]
    exact String.append_empty o
  simp only [linkOf, he, hn]

/-- Witness of C6: the anchor `<a>No Href</a>` under the origin `http://example.com/page`. -/
theorem C6_missing_href_yields_origin_witness :
    ∃ w, slurpHandler.each slurpHandler.crossDomainRegex "http://example.com/page"
          SlurpVars.zero 1 ⟨[], "No Href"⟩ = some w
      ∧ w.link = [("href", "http://example.com/page"), ("content", "No Href")]
      ∧ w.links = goAppend SlurpVars.zero.links w.link :=
  (C6_missing_href_yields_origin "http://example.com/page" SlurpVars.zero 1 ⟨[], "No Href"⟩
    rfl).1

/-- C7: for every target URL u supplied by the caller, `slurpHandler` issues exactly one
fetch, against `strings.ToLower u`, and on success prefixes that same lower-cased string to
every relative href. `strings.ToLower` maps every rune through `unicode.ToLower`, which
lowers the ASCII upper-case letters wherever they stand, path and query included. For
`HTTP://EXAMPLE.COM` the fetch is issued against `http://example.com`. -/
theorem C7_target_is_lowercased (caseTable : Char → Char)
    (NewDocument : String → Except String Document) (u : String) :
    slurpHandler caseTable NewDocument u
        = some ⟨[strings.ToLower caseTable u],
            match NewDocument (strings.ToLower caseTable u) with
            | .ok doc =>
              json.encodeResponse ⟨true,
                if doc.anchors.isEmpty then none
                else some (doc.anchors.map fun a =>
                  [("href", Spec.normalize (a.Attr "href").1 (strings.ToLower caseTable u)),
                    ("content", a.text)])⟩
            | .error _ => "\x7b\"success\":false,\"links\":null\x7d"⟩
      ∧ (strings.ToLower caseTable u).data = u.data.map (unicode.ToLower caseTable)
      ∧ (∀ r : Char, unicode.ToLower caseTable r
          = if r.toNat ≤ 0x7F then r.toLower else caseTable r)
      ∧ strings.ToLower caseTable "HTTP://EXAMPLE.COM" = "http://example.com"
      ∧ strings.ToLower caseTable "HTTP://EXAMPLE.COM/Path?Q=AbC" = "http://example.com/path?q=abc"
      ∧ (slurpHandler caseTable NewDocument "HTTP://EXAMPLE.COM").map Effects.fetched
          = some ["http://example.com"]
      ∧ (slurpHandler caseTable (fun _ => Except.ok ⟨[⟨[("href", "/About")], "About"⟩]⟩)
            "http://Example.com/Page").map Effects.written
          = some "\x7b\"success\":true,\"links\":[\x7b\"content\":\"About\",\"href\":\"http://example.com/page/About\"\x7d]\x7d" := by
  refine ⟨slurpHandler_eq caseTable NewDocument u, rfl, ?_, rfl, rfl, ?_, rfl⟩
  · intro r
    unfold unicode.ToLower Char.toLower
    by_cases h : r.toNat ≤ 0x7F
    · simp only [h, if_true]
      by_cases h2 : 'A'.toNat ≤ r.toNat ∧ r.toNat ≤ 'Z'.toNat
      · have h3 : r.toNat ≥ 65 ∧ r.toNat ≤ 90 := h2
        rw [if_pos h2, if_pos h3]
        rfl
      · have h3 : ¬ (r.toNat ≥ 65 ∧ r.toNat ≤ 90) := h2
        rw [if_neg h2, if_neg h3]
    · simp only [h, if_false]
  · rw [slurpHandler_eq]
    rfl

/-- C8: for every successful scrape the body is the encoding of a response with
`success` true, and every element of its links carries exactly the two keys `href` and
`content`, each bound to a string: the element is written as a JSON object with these two
members, whose values are JSON string literals, also when the anchor has no href attribute
or no text. -/
theorem C8_links_carry_both_keys (caseTable : Char → Char)
    (NewDocument : String → Except String Document) (query : String) (doc : Document)
    (hfetch : NewDocument (strings.ToLower caseTable query) = Except.ok doc) :
    ∃ links, slurpHandler caseTable NewDocument query
          = some ⟨[strings.ToLower caseTable query], json.encodeResponse ⟨true, links⟩⟩
      ∧ (sliceElems links).length = doc.anchors.length
      ∧ (∀ l ∈ sliceElems links, ∃ href content : String,
          l = [("href", href), ("content", content)]
            ∧ json.encodeMap l = "\x7b\"content\":" ++ json.encodeString content ++ ",\"href\":"
                ++ json.encodeString href ++ "\x7d")
      ∧ (∀ s : String, ∃ body, (json.encodeString s).data
          = Char.ofNat 34 :: (body ++ [Char.ofNat 34])) := by
  refine ⟨if doc.anchors.isEmpty then none
      else some (doc.anchors.map (linkOf (strings.ToLower caseTable query))), ?_, ?_, ?_, ?_⟩
  · rw [slurpHandler_eq, hfetch]
  · cases h : doc.anchors <;> simp [sliceElems]
  · intro l hl
    have hmem : l ∈ doc.anchors.map (linkOf (strings.ToLower caseTable query)) := by
      cases h : doc.anchors with
      | nil => rw [h] at hl; simp [sliceElems] at hl
      | cons a rest => rw [h] at hl; simpa [sliceElems] using hl
    obtain ⟨a, _, ha⟩ := List.mem_map.mp hmem
    refine ⟨Spec.normalize (a.Attr "href").1 (strings.ToLower caseTable query), a.text, ha.symm, ?_⟩
    rw [← ha]
    exact encodeMap_link _ _
  · intro s
    exact ⟨_, rfl⟩

/-- Witness of C8: a document with one ordinary anchor and one anchor that has neither an
href attribute nor text. -/
theorem C8_links_carry_both_keys_witness :
    ∃ links, slurpHandler id
            (fun _ => Except.ok ⟨[⟨[("href", "/about")], "About"⟩, ⟨[], ""⟩]⟩) "http://example.com"
          = some ⟨[strings.ToLower id "http://example.com"], json.encodeResponse ⟨true, links⟩⟩
      ∧ (sliceElems links).length
          = (Document.mk [⟨[("href", "/about")], "About"⟩, ⟨[], ""⟩]).anchors.length
      ∧ (∀ l ∈ sliceElems links, ∃ href content : String,
          l = [("href", href), ("content", content)]
            ∧ json.encodeMap l = "\x7b\"content\":" ++ json.encodeString content ++ ",\"href\":"
                ++ json.encodeString href ++ "\x7d")
      ∧ (∀ s : String, ∃ body, (json.encodeString s).data
          = Char.ofNat 34 :: (body ++ [Char.ofNat 34])) :=
  C8_links_carry_both_keys id
    (fun _ => Except.ok ⟨[⟨[("href", "/about")], "About"⟩, ⟨[], ""⟩]⟩) "http://example.com"
    ⟨[⟨[("href", "/about")], "About"⟩, ⟨[], ""⟩]⟩ rfl

/-- C9: for every href h that begins with `http` and every origin o, the normalisation of
lines 141-143 returns h, and applying it to its own result returns that result again. -/
theorem C9_normalize_idempotent_on_absolute (h o : String)
    (habs : "http".data.isPrefixOf h.data = true) :
    ∃ n, slurpHandler.sameOrigin slurpHandler.crossDomainRegex o h = some n
      ∧ slurpHandler.sameOrigin slurpHandler.crossDomainRegex o n = some n
      ∧ n = h
      ∧ Spec.normalize (Spec.normalize h o) o = Spec.normalize h o := by
  have hn : Spec.normalize h o = h := normalize_of_absolute h o habs
  refine ⟨h, ?_, ?_, rfl, ?_⟩
  · rw [sameOrigin_eq, hn]
  · rw [sameOrigin_eq, hn]
  · rw [hn, hn]

/-- Witness of C9: an absolute href under an unrelated origin. -/
theorem C9_normalize_idempotent_on_absolute_witness :
    ∃ n, slurpHandler.sameOrigin slurpHandler.crossDomainRegex "http://example.com"
          "https://golang.org/doc" = some n
      ∧ slurpHandler.sameOrigin slurpHandler.crossDomainRegex "http://example.com" n = some n
      ∧ n = "https://golang.org/doc"
      ∧ Spec.normalize (Spec.normalize "https://golang.org/doc" "http://example.com")
          "http://example.com" = Spec.normalize "https://golang.org/doc" "http://example.com" :=
  C9_normalize_idempotent_on_absolute "https://golang.org/doc" "http://example.com" (by decide)

/-- C10: when the origin o1 begins with `http`, the href emitted for any href h begins
with `http`, is matched by the pattern, and is left unchanged by a second normalisation.
When the origin o2 is non-empty and does not begin with `http`, there is a relative href
whose emitted href is not matched by the pattern, and normalising that one again puts the
origin in front a second time, which changes it. -/
theorem C10_idempotent_iff_origin_absolute (o1 o2 h : String)
    (ho1 : "http".data.isPrefixOf o1.data = true)
    (hne : o2 ≠ "") (ho2 : "http".data.isPrefixOf o2.data = false) :
    (∃ e, slurpHandler.sameOrigin slurpHandler.crossDomainRegex o1 h = some e
        ∧ "http".data.isPrefixOf e.data = true
        ∧ regexp.MatchPtr slurpHandler.crossDomainRegex (goBytes e) = some true
        ∧ slurpHandler.sameOrigin slurpHandler.crossDomainRegex o1 e = some e)
      ∧ (∃ rel e, "http".data.isPrefixOf rel.data = false
        ∧ slurpHandler.sameOrigin slurpHandler.crossDomainRegex o2 rel = some e
        ∧ e = o2 ++ rel
        ∧ regexp.MatchPtr slurpHandler.crossDomainRegex (goBytes e) = some false
        ∧ slurpHandler.sameOrigin slurpHandler.crossDomainRegex o2 e = some (o2 ++ e)
        ∧ o2 ++ e ≠ e) := by
  constructor
  · have he : Spec.isAbsolute (Spec.normalize h o1) = true := by
      cases hh : Spec.isAbsolute h with
      | true => rw [normalize_of_absolute h o1 hh]; exact hh
      | false => rw [normalize_of_relative h o1 hh]; exact isAbsolute_append o1 h ho1
    refine ⟨Spec.normalize h o1, sameOrigin_eq o1 h, he, ?_, ?_⟩
    · rw [crossDomain_match, he]
    · rw [sameOrigin_eq, normalize_of_absolute _ o1 he]
  · have hrel : Spec.isAbsolute "/x" = false := by decide
    have he : Spec.isAbsolute (o2 ++ "/x") = false := isAbsolute_append_slash o2 ho2
    refine ⟨"/x", o2 ++ "/x", hrel, ?_, rfl, ?_, ?_, append_ne_self o2 _ hne⟩
    · rw [sameOrigin_eq, normalize_of_relative _ o2 hrel]
    · rw [crossDomain_match, he]
    · rw [sameOrigin_eq, normalize_of_relative _ o2 he]

/-- Witness of C10: the origins `http://example.com` and `example.com`, the href `/a`. -/
theorem C10_idempotent_iff_origin_absolute_witness :
    (∃ e, slurpHandler.sameOrigin slurpHandler.crossDomainRegex "http://example.com" "/a" = some e
        ∧ "http".data.isPrefixOf e.data = true
        ∧ regexp.MatchPtr slurpHandler.crossDomainRegex (goBytes e) = some true
        ∧ slurpHandler.sameOrigin slurpHandler.crossDomainRegex "http://example.com" e = some e)
      ∧ (∃ rel e, "http".data.isPrefixOf rel.data = false
        ∧ slurpHandler.sameOrigin slurpHandler.crossDomainRegex "example.com" rel = some e
        ∧ e = "example.com" ++ rel
        ∧ regexp.MatchPtr slurpHandler.crossDomainRegex (goBytes e) = some false
        ∧ slurpHandler.sameOrigin slurpHandler.crossDomainRegex "example.com" e
            = some ("example.com" ++ e)
        ∧ "example.com" ++ e ≠ e) :=
  C10_idempotent_iff_origin_absolute "http://example.com" "example.com" "/a" (by decide)
    (by decide) (by decide)

end CheckForBrokenLinks
